import Mathlib

/-!
Verification development for the `tfdown` tool (Go sources:
`src/main.go`, `src/config.go`, `src/downloader.go`).

Strings are modelled as `List Char` (Go byte strings restricted to the
characters the claims exercise).  The path separator is modelled as `'/'`
(`os.PathSeparator` on the Unix targets the tool addresses).  Filesystem
state is an association list from paths to nodes; a write prepends and
lookup takes the first match, so later writes shadow earlier ones, which
models `O_TRUNC` overwriting.
-/

namespace Tfdown

/-- Model of a Go string: a list of characters. -/
abbrev Str := List Char

/-- Converts a Lean string literal into the `Str` model. -/
def str (s : String) : Str := s.data

/-- Model of `os.PathSeparator` on the Unix targets. -/
def sep : Char := '/'

/-- `strings.HasPrefix pre s` from the Go standard library. -/
def isPref : Str → Str → Bool
  | [], _ => true
  | _ :: _, [] => false
  | a :: as', b :: bs => a == b && isPref as' bs

/-- `strings.TrimPrefix`: drops `pre` from the front of `s` when present. -/
def trimPref (pre s : Str) : Str :=
  if isPref pre s then s.drop pre.length else s

/-- `strings.Contains s sub`. -/
def containsStr : Str → Str → Bool
  | [], sub => isPref sub []
  | s@(_ :: t), sub => isPref sub s || containsStr t sub

/-- Splits a string at every occurrence of the path separator
(the element-splitting step of `filepath.Clean`). -/
def splitSep : Str → List Str
  | [] => [[]]
  | c :: cs =>
    if c = sep then [] :: splitSep cs
    else
      match splitSep cs with
      | [] => [[c]]
      | l :: ls => (c :: l) :: ls

/-- The element-processing loop of Go `path/filepath.Clean`: empty and `.`
elements are dropped; `..` pops the previous element (rooted paths drop a
`..` at the root, relative paths keep leading `..` runs).  `acc` holds the
output elements in reverse. -/
def cleanComps (rooted : Bool) : List Str → List Str → List Str
  | acc, [] => acc.reverse
  | acc, c :: cs =>
    if c = [] || c = str "." then cleanComps rooted acc cs
    else if c = str ".." then
      if rooted then cleanComps rooted acc.tail cs
      else
        match acc with
        | [] => cleanComps rooted (str ".." :: acc) cs
        | a :: _ =>
          if a = str ".." then cleanComps rooted (str ".." :: acc) cs
          else cleanComps rooted acc.tail cs
    else cleanComps rooted (c :: acc) cs

/-- Go `path/filepath.Clean` (Unix separator), by element processing:
shortest lexically equivalent path, `"."` for the empty result. -/
def clean : Str → Str
  | [] => str "."
  | p@(c :: _) =>
    let rooted : Bool := decide (c = sep)
    let comps := cleanComps rooted [] (splitSep p)
    let out := (if rooted then [sep] else []) ++ List.intercalate [sep] comps
    if out = [] then str "." else out

/-- Go `path/filepath.Join` restricted to two elements: the first non-empty
element starts the join, and the result is `Clean`ed. -/
def joinPath (a b : Str) : Str :=
  if a ≠ [] then clean (a ++ sep :: b)
  else if b ≠ [] then clean b
  else []

/-- `p[:i+1]` where `i` is the index of the last separator in `p`
(empty when `p` has no separator) — the `dir` part of `filepath.Split`. -/
def takeUntilLastSep (p : Str) : Str :=
  (p.reverse.dropWhile (fun c => c ≠ sep)).reverse

/-- Go `path/filepath.Dir`: everything up to the final separator, `Clean`ed
(`"."` when there is no separator). -/
def dirOf (p : Str) : Str := clean (takeUntilLastSep p)

/-- Error taxonomy of the tool, one constructor per `fmt.Errorf` family in
the source. -/
inductive GoErr
  | network
  | httpStatus (code : Nat)
  | decodeErr
  | emptyVersion
  | ioErr
  | pathTraversal (p : Str)
  | binaryNotFound (p : Str)
  | installPathMissing (p : Str)
  | extractFailed (e : GoErr)
deriving DecidableEq

/-- `Downloader.GetVersion` (downloader.go:249-254): a non-empty target
version is returned with a leading `"v"` stripped and no network call;
otherwise the remote latest-version lookup (modelled by its outcome
`latest`) is consulted.  The boolean records whether the network was used. -/
def getVersionGo (targetVer : Str) (latest : Except GoErr Str) :
    Except GoErr Str × Bool :=
  if targetVer ≠ [] then (.ok (trimPref (str "v") targetVer), false)
  else (latest, true)

/-! ## Filesystem model and `Unzip` (downloader.go:194-246) -/

/-- A filesystem node: a directory or a file with byte content. -/
inductive Node
  | dir : Node
  | file : List Nat → Node
deriving DecidableEq

/-- Filesystem state: an association list from paths to nodes.  Writes
prepend; lookup takes the first match, so a later write shadows an earlier
one (modelling `O_TRUNC` truncation of an existing file). -/
abbrev FS := List (Str × Node)

/-- First-match lookup in the filesystem. -/
def lookupFS : FS → Str → Option Node
  | [], _ => none
  | (q, n) :: rest, p => if p = q then some n else lookupFS rest p

/-- Whether `p` exists as a file in `fs`. -/
def isFileAt (fs : FS) (p : Str) : Bool :=
  match lookupFS fs p with
  | some (.file _) => true
  | _ => false

/-- Whether `p` exists as a directory in `fs`. -/
def isDirAt (fs : FS) (p : Str) : Bool :=
  match lookupFS fs p with
  | some .dir => true
  | _ => false

/-- Adds a binding only when the path is not yet present — the
directory-creation step on `os.MkdirAll`'s success path, which leaves
existing directories alone.  The failure path (a component that exists as
a file) is handled in `mkdirAllGo` before any insertion happens. -/
def insertIfAbsent (fs : FS) (p : Str) (n : Node) : FS :=
  match lookupFS fs p with
  | some _ => fs
  | none => (p, n) :: fs

/-- The chain of proper ancestor paths of `p` (for `os.MkdirAll`, which
creates every missing intermediate directory), accumulated left to right. -/
def chainAux (pre : Str) : List Str → List Str
  | [] => []
  | [_] => []
  | c :: d :: rest => (pre ++ c) :: chainAux (pre ++ c ++ [sep]) (d :: rest)

/-- All directories `os.MkdirAll p` creates: the ancestors of `p` followed
by `p` itself. -/
def dirChain (p : Str) : List Str :=
  let rooted : Bool := decide (p.head? = some sep)
  let comps := (splitSep p).filter (fun c => !c.isEmpty)
  chainAux (if rooted then [sep] else []) comps ++ [p]

/-- `os.MkdirAll`: when some component of `p` (including `p` itself)
exists as a file, it fails with `ENOTDIR` having created nothing — the
recursion stats each missing component's parent first, so it errors
before any `Mkdir` runs; otherwise it creates every missing component as
a directory, leaving existing bindings unchanged.  Returns the new state
and whether it succeeded. -/
def mkdirAllGo (fs : FS) (p : Str) : FS × Bool :=
  if (dirChain p).any (fun q => isFileAt fs q) then (fs, false)
  else ((dirChain p).foldl (fun a q => insertIfAbsent a q .dir) fs, true)

/-- The success path of
`os.OpenFile(p, O_WRONLY|O_CREATE|O_TRUNC, mode)` followed by `io.Copy`:
(over)writes the file at `p` with `content` (`O_TRUNC` truncates an
existing file).  The failure path — `EISDIR` when `p` exists as a
directory — is checked in `unzipStep` before this runs. -/
def writeFS (fs : FS) (p : Str) (content : List Nat) : FS :=
  (p, .file content) :: fs

/-- One archive entry as `Unzip` sees it: the raw name stored in the
archive, whether `f.FileInfo().IsDir()`, and the entry's byte content. -/
structure Entry where
  name : Str
  isDir : Bool
  content : List Nat
deriving DecidableEq

/-- The zip-slip check of downloader.go:211:
`strings.HasPrefix(fpath, filepath.Clean(destPath)+string(os.PathSeparator))`
where `fpath = filepath.Join(destPath, f.Name)`. -/
def entryOk (dest : Str) (e : Entry) : Bool :=
  isPref (clean dest ++ [sep]) (joinPath dest e.name)

/-- The per-entry body of `Unzip`'s loop, after the zip-slip check passed.
A directory entry is `MkdirAll`ed with the error discarded
(downloader.go:216).  A file entry creates its parent directories,
aborting on error (downloader.go:221-223), then opens the file — `EISDIR`
when the path exists as a directory aborts (downloader.go:225-228) — and
writes the content.  Environmental faults (disk full, permissions) are
outside the model; the input-determined failure modes above are in it. -/
def unzipStep (dest : Str) (fs : FS) (e : Entry) : FS × Option GoErr :=
  let fpath := joinPath dest e.name
  if e.isDir then ((mkdirAllGo fs fpath).1, none)
  else
    let md := mkdirAllGo fs (dirOf fpath)
    if md.2 = false then (md.1, some .ioErr)
    else if isDirAt md.1 fpath then (md.1, some .ioErr)
    else (writeFS md.1 fpath e.content, none)

/-- The entry loop of `Unzip` (downloader.go:206-243): each entry is
checked against the zip-slip invariant before any of its effects; the
first offending entry aborts the loop with a path-traversal error, and a
failing step aborts it with that step's error, leaving the filesystem as
produced so far. -/
def unzipLoop (dest : Str) : FS → List Entry → FS × Option GoErr
  | fs, [] => (fs, none)
  | fs, e :: rest =>
    if entryOk dest e then
      let st := unzipStep dest fs e
      if st.2 = none then unzipLoop dest st.1 rest else st
    else (fs, some (.pathTraversal (joinPath dest e.name)))

/-- `Unzip(zipPath, destPath)` (downloader.go:194-246) on an archive whose
entries are `entries`: the destination directory is created — an error
aborts (downloader.go:202-204) — then the entries are processed in order.
Opening the archive itself is outside the model (the claims quantify over
readable archives). -/
def unzipGo (dest : Str) (entries : List Entry) (fs0 : FS) : FS × Option GoErr :=
  let md := mkdirAllGo fs0 dest
  if md.2 = false then (md.1, some .ioErr)
  else unzipLoop dest md.1 entries

/-- The directories an entry's step creates (or requires to not be
files): a directory entry needs its own `MkdirAll` chain, a file entry
the chain of its parent directory. -/
def neededDirs (dest : Str) (e : Entry) : List Str :=
  if e.isDir then dirChain (joinPath dest e.name)
  else dirChain (dirOf (joinPath dest e.name))

/-- Every directory path an extraction touches: the destination's own
`MkdirAll` chain and each entry's needed chain.  A resolved file path in
this set makes the corresponding real `MkdirAll` or `OpenFile` fail. -/
def unzipDirs (dest : Str) (entries : List Entry) : List Str :=
  dirChain dest ++ (entries.map (neededDirs dest)).flatten

/-! ## Persisted configuration (config.go) -/

/-- The persisted fields of `Config` (config.go:13-18).  The derived
`configPath` field locates the file and is not part of the persisted
record. -/
structure Conf where
  version : Str
  install : Bool
  installPath : Str
deriving DecidableEq

/-- `NewConfig()` (config.go:21-34): all fields zero-valued. -/
def defaultConf : Conf := ⟨[], false, []⟩

/-- The whitespace set of Go `unicode.IsSpace` over the Latin-1 range,
used by `strings.TrimSpace`. -/
def isSpace (c : Char) : Bool :=
  c = ' ' || c = '\t' || c = '\n' || c = '\x0b' || c = '\x0c' || c = '\r'
    || c = '\x85' || c = '\xa0'

/-- `strings.TrimSpace`: drops whitespace from both ends. -/
def trimSpace (s : Str) : Str :=
  ((s.dropWhile isSpace).reverse.dropWhile isSpace).reverse

/-- `strings.SplitN(line, "=", 2)` when it yields two parts: the text
before the first `'='` and everything after it (`none` when there is no
`'='`, in which case `SplitN` yields a single part). -/
def splitEq : Str → Option (Str × Str)
  | [] => none
  | c :: cs =>
    if c = '=' then some ([], cs)
    else (splitEq cs).map (fun kv => (c :: kv.1, kv.2))

/-- `strconv.ParseBool`: the exact set of accepted literals; anything else
fails (`none`). -/
def parseBool (s : Str) : Option Bool :=
  if s = str "1" || s = str "t" || s = str "T" || s = str "TRUE"
      || s = str "true" || s = str "True" then some true
  else if s = str "0" || s = str "f" || s = str "F" || s = str "FALSE"
      || s = str "false" || s = str "False" then some false
  else none

/-- `bufio.ScanLines` strips one trailing `'\r'` from each line. -/
def dropCR (l : Str) : Str :=
  if l.getLast? = some '\r' then l.dropLast else l

/-- Splits file content at `'\n'` into the lines `bufio.Scanner` yields
(the model also yields a final empty line after a trailing newline, which
`Load` skips as blank, so the difference is unobservable). -/
def splitLines : Str → List Str
  | [] => [[]]
  | c :: cs =>
    if c = '\n' then [] :: splitLines cs
    else (c :: (splitLines cs).headI) :: (splitLines cs).tail

/-- The per-line body of `Config.Load`'s scanner loop (config.go:49-71):
trim, skip blank and `#` comment lines, skip lines without `'='`, then
dispatch on the trimmed key; an unparsable boolean leaves `install` at
`ParseBool`'s zero value `false`. -/
def applyLine (c : Conf) (raw : Str) : Conf :=
  let line := trimSpace (dropCR raw)
  if line = [] then c
  else if isPref (str "#") line then c
  else
    match splitEq line with
    | none => c
    | some kv =>
      let key := trimSpace kv.1
      let val := trimSpace kv.2
      if key = str "version" then { c with version := val }
      else if key = str "install" then
        { c with install := (parseBool val).getD false }
      else if key = str "install_path" then { c with installPath := val }
      else c

/-- Folds `Config.Load`'s scanner loop over every line of the file. -/
def loadContent (c0 : Conf) (content : Str) : Conf :=
  (splitLines content).foldl applyLine c0

/-- `Config.Load` (config.go:37-78) against a fresh `NewConfig()`: an
absent file yields the zero-value configuration with no error; otherwise
every line is processed tolerantly and no error is produced. -/
def loadGo (present : Bool) (content : Str) : Conf × Option GoErr :=
  if present then (loadContent defaultConf content, none)
  else (defaultConf, none)

/-- An ASCII-printable character (space through tilde) — the formal
rendering of the spec's "printable" for configuration field contents. -/
def printableChar (c : Char) : Bool := 0x20 ≤ c.toNat && c.toNat ≤ 0x7e

/-- A string with no leading and no trailing whitespace (its edges survive
`strings.TrimSpace` unchanged). -/
def edgeTrimmed (s : Str) : Bool :=
  (match s.head? with | some a => !isSpace a | none => true) &&
  (match s.getLast? with | some a => !isSpace a | none => true)

/-- `%t` formatting of a Go boolean. -/
def boolStr (b : Bool) : Str := if b then str "true" else str "false"

/-- The exact file content `Config.Save` writes (config.go:81-94), with
the source's placeholder date. -/
def saveContent (c : Conf) : Str :=
  str "# tfdown configuration file" ++ '\n' ::
  (str "# Last updated: 2026-02-05" ++ '\n' :: '\n' ::
  (str "version=" ++ c.version ++ '\n' ::
  (str "install=" ++ boolStr c.install ++ '\n' ::
  (str "install_path=" ++ c.installPath ++ '\n' :: []))))

/-- `Config.Update` (config.go:97-104): a non-empty version overwrites the
stored one, the install flag and path are overwritten unconditionally, and
the full record is saved.  Returns the new state and the saved content. -/
def updateGo (c : Conf) (version : Str) (install : Bool) (installPath : Str) :
    Conf × Str :=
  let c' : Conf :=
    { version := if version ≠ [] then version else c.version
      install := install
      installPath := installPath }
  (c', saveContent c')

/-! ## Orchestration decision (main.go:50-103) -/

/-- The observable plan of a `main` run after version resolution:
whether it returns early reporting "Already up to date", whether it issues
the archive download, whether the install phase runs, and with which
install path. -/
structure RunPlan where
  upToDate : Bool
  download : Bool
  install : Bool
  installPath : Str
deriving DecidableEq

/-- main.go:50-93 as a pure function of the parsed flag values, the loaded
configuration and the resolved version `ver`:
`autoUpdate := flag.NFlag() == 0`; in auto mode a configured install is
merged into the flags (lines 53-56); the up-to-date check (line 69) skips
when in auto mode the persisted version equals `ver` and neither the
(merged) install flag nor the force flag is set; a forced run with a
configured install also merges it (lines 75-78); the install phase runs
when the (merged) install flag is set and the install path non-empty
(line 93). -/
def planRun (nflags : Nat) (fInstall : Bool) (fInstallPath : Str)
    (fForce : Bool) (cfg : Conf) (ver : Str) : RunPlan :=
  let autoUpdate : Bool := nflags == 0
  let cfgInstall : Bool := cfg.install && !cfg.installPath.isEmpty
  let inst1 := if autoUpdate && cfgInstall then true else fInstall
  let path1 := if autoUpdate && cfgInstall then cfg.installPath else fInstallPath
  if autoUpdate && cfg.version == ver && !inst1 && !fForce then
    ⟨true, false, false, path1⟩
  else
    let inst2 := if fForce && cfgInstall then true else inst1
    let path2 := if fForce && cfgInstall then cfg.installPath else path1
    ⟨false, true, inst2 && !path2.isEmpty, path2⟩

/-! ## `Downloader.Download` (downloader.go:109-172) -/

/-- An HTTP response as `Download` consumes it. -/
structure HttpResp where
  status : Nat
  contentLength : Int
  body : List Nat
deriving DecidableEq

/-- `Downloader.Download`: resolves the version (delegating to the
latest-version lookup, modelled by its outcome, when no target version is
set), strips a leading `"v"`, and issues the archive GET (modelled by
`resp`; `none` is a transport failure).  The status is checked before the
local file is created (downloader.go:137-144), so the returned flag
records whether `os.Create` ran; the final component is the bytes written
to it.  Progress reporting is display-only and not modelled. -/
def downloadGo (targetVer targetOS targetArch : Str)
    (latest : Except GoErr Str) (resp : Option HttpResp) :
    Except GoErr Str × Bool × List Nat :=
  match (if targetVer = [] then latest else .ok targetVer) with
  | .error e => (.error e, false, [])
  | .ok v0 =>
    let ver := trimPref (str "v") v0
    let zipFile := str "terraform_" ++ ver ++ str "_" ++ targetOS
      ++ str "_" ++ targetArch ++ str ".zip"
    match resp with
    | none => (.error .network, false, [])
    | some r =>
      if r.status ≠ 200 then (.error (.httpStatus r.status), false, [])
      else (.ok zipFile, true, r.body)

/-! ## `installTerraform` (main.go:106-160) -/

/-- The observable phases of `installTerraform`, in execution order. -/
inductive InstPhase
  | madeTempDir
  | extracted
  | copiedBinary
  | madeExecutable
  | removedZip
deriving DecidableEq

/-- `installTerraform(zipFile, installPath)`: `os.Stat` on the install
path first — a missing path returns an error before the temporary
directory, the extraction or any write happens (main.go:107-110).
Otherwise a fresh scratch directory (`tempDir`, empty filesystem) receives
the extraction; the expected binary name is `terraform.exe` when the zip
filename mentions `windows` and `terraform` otherwise; a missing binary is
an error; then the binary is copied, made executable on non-Windows hosts,
and the zip file removed.  Returns the error outcome and the list of
phases performed. -/
def installTerraformGo (zipFile installPath tempDir : Str)
    (entries : List Entry) (installPathExists : Bool) (hostWindows : Bool) :
    Option GoErr × List InstPhase :=
  if !installPathExists then (some (.installPathMissing installPath), [])
  else
    let ext := unzipGo tempDir entries []
    match ext.2 with
    | some e => (some (.extractFailed e), [.madeTempDir])
    | none =>
      let binaryName :=
        if containsStr zipFile (str "windows") then str "terraform.exe"
        else str "terraform"
      let srcPath := joinPath tempDir binaryName
      match lookupFS ext.1 srcPath with
      | none => (some (.binaryNotFound srcPath), [.madeTempDir, .extracted])
      | some _ =>
        (none,
          [.madeTempDir, .extracted, .copiedBinary]
            ++ (if hostWindows then [] else [.madeExecutable])
            ++ [.removedZip])

/-! ## Filesystem lemmas -/

theorem lookupFS_cons (q : Str) (n : Node) (fs : FS) (p : Str) :
    lookupFS ((q, n) :: fs) p = if p = q then some n else lookupFS fs p := rfl

theorem lookupFS_insertIfAbsent_of_some (fs : FS) (q : Str) (n m : Node)
    (p : Str) (h : lookupFS fs p = some m) :
    lookupFS (insertIfAbsent fs q n) p = some m := by
  unfold insertIfAbsent
  cases hq : lookupFS fs q with
  | some _ => exact h
  | none =>
    rw [lookupFS_cons]
    rcases eq_or_ne p q with hpq | hpq
    · subst hpq
      rw [hq] at h
      exact absurd h (by simp)
    · simp [hpq, h]

theorem lookupFS_insertIfAbsent_rev (fs : FS) (q : Str) (n : Node) (p : Str)
    (m : Node) (h : lookupFS (insertIfAbsent fs q n) p = some m) :
    lookupFS fs p = some m ∨ (p = q ∧ m = n) := by
  unfold insertIfAbsent at h
  cases hq : lookupFS fs q with
  | some _ => rw [hq] at h; exact Or.inl h
  | none =>
    rw [hq, lookupFS_cons] at h
    rcases eq_or_ne p q with hpq | hpq
    · rw [if_pos hpq] at h
      injection h with h2
      exact Or.inr ⟨hpq, h2.symm⟩
    · rw [if_neg hpq] at h
      exact Or.inl h

theorem lookupFS_insertDir_file_rev (fs : FS) (q p : Str) (c : List Nat)
    (h : lookupFS (insertIfAbsent fs q .dir) p = some (.file c)) :
    lookupFS fs p = some (.file c) := by
  rcases lookupFS_insertIfAbsent_rev fs q .dir p _ h with h' | ⟨_, hm⟩
  · exact h'
  · exact Node.noConfusion hm

theorem lookupFS_foldlInsert_of_some (l : List Str) (fs : FS) (p : Str)
    (m : Node) (h : lookupFS fs p = some m) :
    lookupFS (l.foldl (fun a q => insertIfAbsent a q .dir) fs) p = some m := by
  induction l generalizing fs with
  | nil => exact h
  | cons q l' ih =>
    exact ih (insertIfAbsent fs q .dir)
      (lookupFS_insertIfAbsent_of_some fs q .dir m p h)

theorem lookupFS_foldlInsert_file_rev (l : List Str) (fs : FS) (p : Str)
    (c : List Nat)
    (h : lookupFS (l.foldl (fun a q => insertIfAbsent a q .dir) fs) p
      = some (.file c)) :
    lookupFS fs p = some (.file c) := by
  induction l generalizing fs with
  | nil => exact h
  | cons q l' ih =>
    exact lookupFS_insertDir_file_rev fs q p c (ih (insertIfAbsent fs q .dir) h)

theorem lookupFS_foldlInsert_mem (l : List Str) (fs : FS) (p : Str)
    (hp : p ∈ l) (h : ∀ c, lookupFS fs p ≠ some (.file c)) :
    lookupFS (l.foldl (fun a q => insertIfAbsent a q .dir) fs) p
      = some .dir := by
  induction l generalizing fs with
  | nil => cases hp
  | cons q l' ih =>
    rcases List.mem_cons.1 hp with hpq | hpl
    · subst hpq
      have hfs' : lookupFS (insertIfAbsent fs p .dir) p = some .dir := by
        unfold insertIfAbsent
        cases hq : lookupFS fs p with
        | none => simp [lookupFS_cons]
        | some m =>
          cases m with
          | dir => exact hq
          | file c => exact absurd hq (h c)
      exact lookupFS_foldlInsert_of_some l' _ p .dir hfs'
    · refine ih (insertIfAbsent fs q .dir) hpl (fun c hc => ?_)
      exact h c (lookupFS_insertDir_file_rev fs q p c hc)

theorem lookupFS_foldlInsert_rev (l : List Str) (fs : FS) (p : Str)
    (m : Node)
    (h : lookupFS (l.foldl (fun a q => insertIfAbsent a q .dir) fs) p
      = some m) :
    lookupFS fs p = some m ∨ (p ∈ l ∧ m = .dir) := by
  induction l generalizing fs with
  | nil => exact Or.inl h
  | cons q l' ih =>
    rcases ih (insertIfAbsent fs q .dir) h with h' | ⟨hm, hd⟩
    · rcases lookupFS_insertIfAbsent_rev fs q .dir p m h' with h'' | ⟨hpq, hmd⟩
      · exact Or.inl h''
      · exact Or.inr ⟨hpq ▸ List.mem_cons_self q l', hmd⟩
    · exact Or.inr ⟨.tail q hm, hd⟩

theorem mem_dirChain_self (p : Str) : p ∈ dirChain p := by
  unfold dirChain
  simp

theorem isFileAt_eq_true (fs : FS) (p : Str) :
    isFileAt fs p = true ↔ ∃ c, lookupFS fs p = some (.file c) := by
  unfold isFileAt
  cases h : lookupFS fs p with
  | none => simp
  | some m =>
    cases m with
    | dir => simp
    | file c => simp

theorem isDirAt_eq_true (fs : FS) (p : Str) :
    isDirAt fs p = true ↔ lookupFS fs p = some .dir := by
  unfold isDirAt
  cases h : lookupFS fs p with
  | none => simp
  | some m =>
    cases m with
    | dir => simp
    | file c => simp

theorem mkdirAllGo_ok (fs : FS) (p : Str)
    (h : ∀ q ∈ dirChain p, ∀ c, lookupFS fs q ≠ some (.file c)) :
    mkdirAllGo fs p
      = ((dirChain p).foldl (fun a q => insertIfAbsent a q .dir) fs, true) := by
  unfold mkdirAllGo
  rw [if_neg (fun hc => by
    rcases List.any_eq_true.1 hc with ⟨q, hq, hfq⟩
    rcases (isFileAt_eq_true fs q).1 hfq with ⟨c, hcq⟩
    exact h q hq c hcq)]

theorem lookupFS_mkdirAllGo_of_some (fs : FS) (q p : Str) (m : Node)
    (h : lookupFS fs p = some m) :
    lookupFS (mkdirAllGo fs q).1 p = some m := by
  unfold mkdirAllGo
  by_cases hc : (dirChain q).any (fun r => isFileAt fs r) = true
  · rw [if_pos hc]
    exact h
  · rw [if_neg hc]
    exact lookupFS_foldlInsert_of_some (dirChain q) fs p m h

theorem lookupFS_mkdirAllGo_file_rev (fs : FS) (q p : Str) (c : List Nat)
    (h : lookupFS (mkdirAllGo fs q).1 p = some (.file c)) :
    lookupFS fs p = some (.file c) := by
  unfold mkdirAllGo at h
  by_cases hc : (dirChain q).any (fun r => isFileAt fs r) = true
  · rw [if_pos hc] at h
    exact h
  · rw [if_neg hc] at h
    exact lookupFS_foldlInsert_file_rev (dirChain q) fs p c h

theorem lookupFS_mkdirAllGo_dir_rev (fs : FS) (q p : Str)
    (h : lookupFS (mkdirAllGo fs q).1 p = some .dir) :
    lookupFS fs p = some .dir ∨ p ∈ dirChain q := by
  unfold mkdirAllGo at h
  by_cases hc : (dirChain q).any (fun r => isFileAt fs r) = true
  · rw [if_pos hc] at h
    exact Or.inl h
  · rw [if_neg hc] at h
    rcases lookupFS_foldlInsert_rev (dirChain q) fs p _ h with h' | ⟨hm, _⟩
    · exact Or.inl h'
    · exact Or.inr hm

theorem lookupFS_mkdirAllGo_self (fs : FS) (p : Str)
    (h : ∀ q ∈ dirChain p, ∀ c, lookupFS fs q ≠ some (.file c)) :
    lookupFS (mkdirAllGo fs p).1 p = some .dir := by
  rw [mkdirAllGo_ok fs p h]
  exact lookupFS_foldlInsert_mem (dirChain p) fs p (mem_dirChain_self p)
    (h p (mem_dirChain_self p))

theorem lookupFS_writeFS (fs : FS) (q : Str) (c : List Nat) (p : Str) :
    lookupFS (writeFS fs q c) p
      = if p = q then some (.file c) else lookupFS fs p := rfl
/-! ## `Unzip` step and loop lemmas -/

theorem unzipStep_dir (dest : Str) (fs : FS) (e : Entry)
    (hd : e.isDir = true) :
    unzipStep dest fs e = ((mkdirAllGo fs (joinPath dest e.name)).1, none) := by
  simp only [unzipStep]
  rw [if_pos hd]

theorem unzipStep_file_ok (dest : Str) (fs : FS) (e : Entry)
    (hd : e.isDir = false)
    (hmd : (mkdirAllGo fs (dirOf (joinPath dest e.name))).2 = true)
    (hdir : isDirAt (mkdirAllGo fs (dirOf (joinPath dest e.name))).1
      (joinPath dest e.name) = false) :
    unzipStep dest fs e
      = (writeFS (mkdirAllGo fs (dirOf (joinPath dest e.name))).1
          (joinPath dest e.name) e.content, none) := by
  simp only [unzipStep]
  rw [if_neg (by simp [hd]), if_neg (by simp [hmd]), if_neg (by simp [hdir])]

theorem unzipStep_preserve (dest : Str) (fs : FS) (e : Entry) (p : Str)
    (m : Node) (h : lookupFS fs p = some m)
    (hne : e.isDir = false → joinPath dest e.name ≠ p) :
    lookupFS (unzipStep dest fs e).1 p = some m := by
  cases hd : e.isDir with
  | true =>
    rw [unzipStep_dir dest fs e hd]
    exact lookupFS_mkdirAllGo_of_some fs _ p m h
  | false =>
    simp only [unzipStep]
    rw [if_neg (by simp [hd])]
    by_cases hmd : (mkdirAllGo fs (dirOf (joinPath dest e.name))).2 = false
    · rw [if_pos hmd]
      exact lookupFS_mkdirAllGo_of_some fs _ p m h
    · rw [if_neg hmd]
      by_cases hdir : isDirAt (mkdirAllGo fs (dirOf (joinPath dest e.name))).1
          (joinPath dest e.name) = true
      · rw [if_pos hdir]
        exact lookupFS_mkdirAllGo_of_some fs _ p m h
      · rw [if_neg hdir]
        show lookupFS (writeFS (mkdirAllGo fs (dirOf (joinPath dest e.name))).1
          (joinPath dest e.name) e.content) p = some m
        rw [lookupFS_writeFS, if_neg (fun hpq => hne hd hpq.symm)]
        exact lookupFS_mkdirAllGo_of_some fs _ p m h

theorem unzipLoop_cons_ok (dest : Str) (fs : FS) (e : Entry)
    (rest : List Entry) (hok : entryOk dest e = true)
    (hst : (unzipStep dest fs e).2 = none) :
    unzipLoop dest fs (e :: rest)
      = unzipLoop dest (unzipStep dest fs e).1 rest := by
  simp only [unzipLoop]
  rw [if_pos hok, if_pos hst]

theorem unzipLoop_cons_err (dest : Str) (fs : FS) (e : Entry)
    (rest : List Entry) (hok : entryOk dest e = true)
    (hst : (unzipStep dest fs e).2 ≠ none) :
    unzipLoop dest fs (e :: rest) = unzipStep dest fs e := by
  simp only [unzipLoop]
  rw [if_pos hok, if_neg hst]

theorem unzipLoop_cons_bad (dest : Str) (fs : FS) (e : Entry)
    (rest : List Entry) (hbad : entryOk dest e = false) :
    unzipLoop dest fs (e :: rest)
      = (fs, some (.pathTraversal (joinPath dest e.name))) := by
  simp only [unzipLoop]
  rw [if_neg (by simp [hbad])]

theorem unzipLoop_preserve (dest : Str) (entries : List Entry) (fs : FS)
    (p : Str) (m : Node) (h : lookupFS fs p = some m)
    (hw : ∀ e ∈ entries, e.isDir = false → joinPath dest e.name ≠ p) :
    lookupFS (unzipLoop dest fs entries).1 p = some m := by
  induction entries generalizing fs with
  | nil => exact h
  | cons e rest ih =>
    have hpres := unzipStep_preserve dest fs e p m h
      (fun hf => hw e (.head rest) hf)
    cases hok : entryOk dest e with
    | false =>
      rw [unzipLoop_cons_bad dest fs e rest hok]
      exact h
    | true =>
      by_cases hst : (unzipStep dest fs e).2 = none
      · rw [unzipLoop_cons_ok dest fs e rest hok hst]
        exact ih _ hpres (fun e' he' => hw e' (.tail e he'))
      · rw [unzipLoop_cons_err dest fs e rest hok hst]
        exact hpres

theorem unzipLoop_append_bad (dest : Str) (bad : Entry) (rest : List Entry)
    (pre : List Entry) (fs : FS)
    (hpre : (unzipLoop dest fs pre).2 = none)
    (hbad : entryOk dest bad = false) :
    unzipLoop dest fs (pre ++ bad :: rest)
      = ((unzipLoop dest fs pre).1,
          some (.pathTraversal (joinPath dest bad.name))) := by
  induction pre generalizing fs with
  | nil =>
    rw [List.nil_append, unzipLoop_cons_bad dest fs bad rest hbad]
    rfl
  | cons e pre' ih =>
    cases hok : entryOk dest e with
    | false =>
      rw [unzipLoop_cons_bad dest fs e pre' hok] at hpre
      exact absurd hpre (by simp)
    | true =>
      by_cases hst : (unzipStep dest fs e).2 = none
      · rw [show (e :: pre') ++ bad :: rest = e :: (pre' ++ bad :: rest)
          from rfl, unzipLoop_cons_ok dest fs e (pre' ++ bad :: rest) hok hst,
          unzipLoop_cons_ok dest fs e pre' hok hst]
        rw [unzipLoop_cons_ok dest fs e pre' hok hst] at hpre
        exact ih (unzipStep dest fs e).1 hpre
      · rw [unzipLoop_cons_err dest fs e pre' hok hst] at hpre
        exact absurd hpre hst

theorem unzipLoop_clean (dest : Str) (entries : List Entry) (fs : FS)
    (hok : ∀ e ∈ entries, entryOk dest e = true)
    (hnd : ((entries.filter (fun x => !x.isDir)).map
      (fun x => joinPath dest x.name)).Nodup)
    (hcross : ∀ e ∈ entries, e.isDir = false → ∀ e' ∈ entries,
      joinPath dest e.name ∉ neededDirs dest e')
    (hfsf : ∀ p c, lookupFS fs p = some (.file c) →
      ∀ e ∈ entries, p ∉ neededDirs dest e)
    (hfsd : ∀ p, lookupFS fs p = some .dir →
      ∀ e ∈ entries, e.isDir = false → p ≠ joinPath dest e.name) :
    (unzipLoop dest fs entries).2 = none ∧
    (∀ e ∈ entries, e.isDir = false →
      lookupFS (unzipLoop dest fs entries).1 (joinPath dest e.name)
        = some (.file e.content)) ∧
    (∀ e ∈ entries, e.isDir = true →
      lookupFS (unzipLoop dest fs entries).1 (joinPath dest e.name)
        = some .dir) := by
  induction entries generalizing fs with
  | nil =>
    exact ⟨rfl, fun e he => absurd he (List.not_mem_nil e),
      fun e he => absurd he (List.not_mem_nil e)⟩
  | cons x rest ih =>
    have hokx : entryOk dest x = true := hok x (.head rest)
    have hchain : ∀ q ∈ neededDirs dest x, ∀ c,
        lookupFS fs q ≠ some (.file c) :=
      fun q hq c hcq => hfsf q c hcq x (.head rest) hq
    have hok' : ∀ e ∈ rest, entryOk dest e = true :=
      fun e he => hok e (.tail x he)
    have hcross' : ∀ e ∈ rest, e.isDir = false → ∀ e' ∈ rest,
        joinPath dest e.name ∉ neededDirs dest e' :=
      fun e he hf e' he' => hcross e (.tail x he) hf e' (.tail x he')
    cases hx : x.isDir with
    | true =>
      have hnx : neededDirs dest x = dirChain (joinPath dest x.name) := by
        simp [neededDirs, hx]
      have hnd' : ((rest.filter (fun y => !y.isDir)).map
          (fun y => joinPath dest y.name)).Nodup := by
        have hfil : (x :: rest).filter (fun y => !y.isDir)
            = rest.filter (fun y => !y.isDir) := by
          simp [List.filter_cons, hx]
        rwa [hfil] at hnd
      have hstep := unzipStep_dir dest fs x hx
      have hst2 : (unzipStep dest fs x).2 = none := by rw [hstep]
      have hloop : unzipLoop dest fs (x :: rest)
          = unzipLoop dest (mkdirAllGo fs (joinPath dest x.name)).1 rest := by
        rw [unzipLoop_cons_ok dest fs x rest hokx hst2, hstep]
      rw [hloop]
      have hIH := ih (mkdirAllGo fs (joinPath dest x.name)).1 hok' hnd' hcross'
        (fun p c hpc e he hmem =>
          hfsf p c (lookupFS_mkdirAllGo_file_rev fs _ p c hpc) e
            (.tail x he) hmem)
        (fun p hp e he hf => by
          rcases lookupFS_mkdirAllGo_dir_rev fs _ p hp with h' | hmem
          · exact hfsd p h' e (.tail x he) hf
          · intro heq
            exact hcross e (.tail x he) hf x (.head rest)
              (by rw [hnx, ← heq]; exact hmem))
      refine ⟨hIH.1, ?_, ?_⟩
      · intro e he hf
        rcases List.mem_cons.1 he with hex | herest
        · rw [hex, hx] at hf
          exact Bool.noConfusion hf
        · exact hIH.2.1 e herest hf
      · intro e he hd
        rcases List.mem_cons.1 he with hex | herest
        · subst hex
          have hself : lookupFS (mkdirAllGo fs (joinPath dest e.name)).1
              (joinPath dest e.name) = some .dir :=
            lookupFS_mkdirAllGo_self fs _ (by rw [← hnx]; exact hchain)
          exact unzipLoop_preserve dest rest _ _ _ hself
            (fun e' he' hf' heq => hcross e' (.tail e he') hf' e (.head rest)
              (by rw [hnx, ← heq]; exact mem_dirChain_self _))
        · exact hIH.2.2 e herest hd
    | false =>
      have hnx : neededDirs dest x
          = dirChain (dirOf (joinPath dest x.name)) := by
        simp [neededDirs, hx]
      have hfil : (x :: rest).filter (fun y => !y.isDir)
          = x :: rest.filter (fun y => !y.isDir) := by
        simp [List.filter_cons, hx]
      rw [hfil, List.map_cons, List.nodup_cons] at hnd
      obtain ⟨hndh, hndt⟩ := hnd
      have hmd : (mkdirAllGo fs (dirOf (joinPath dest x.name))).2 = true := by
        rw [mkdirAllGo_ok fs _ (by rw [← hnx]; exact hchain)]
      have hdirAt : isDirAt (mkdirAllGo fs (dirOf (joinPath dest x.name))).1
          (joinPath dest x.name) = false := by
        cases hd : isDirAt (mkdirAllGo fs (dirOf (joinPath dest x.name))).1
            (joinPath dest x.name) with
        | false => rfl
        | true =>
          exfalso
          have hlk := (isDirAt_eq_true _ _).1 hd
          rcases lookupFS_mkdirAllGo_dir_rev fs _ _ hlk with h' | hmem
          · exact hfsd _ h' x (.head rest) hx rfl
          · exact hcross x (.head rest) hx x (.head rest)
              (by rw [hnx]; exact hmem)
      have hstep := unzipStep_file_ok dest fs x hx hmd hdirAt
      have hst2 : (unzipStep dest fs x).2 = none := by rw [hstep]
      have hloop : unzipLoop dest fs (x :: rest)
          = unzipLoop dest
            (writeFS (mkdirAllGo fs (dirOf (joinPath dest x.name))).1
              (joinPath dest x.name) x.content) rest := by
        rw [unzipLoop_cons_ok dest fs x rest hokx hst2, hstep]
      rw [hloop]
      have hwf : lookupFS
          (writeFS (mkdirAllGo fs (dirOf (joinPath dest x.name))).1
            (joinPath dest x.name) x.content) (joinPath dest x.name)
          = some (.file x.content) := by
        rw [lookupFS_writeFS, if_pos rfl]
      have hIH := ih (writeFS (mkdirAllGo fs (dirOf (joinPath dest x.name))).1
          (joinPath dest x.name) x.content) hok' hndt hcross'
        (fun p c hpc e he hmem => by
          rw [lookupFS_writeFS] at hpc
          by_cases hpq : p = joinPath dest x.name
          · exact hcross x (.head rest) hx e (.tail x he) (hpq ▸ hmem)
          · rw [if_neg hpq] at hpc
            exact hfsf p c (lookupFS_mkdirAllGo_file_rev fs _ p c hpc) e
              (.tail x he) hmem)
        (fun p hp e he hf => by
          rw [lookupFS_writeFS] at hp
          by_cases hpq : p = joinPath dest x.name
          · rw [if_pos hpq] at hp
            exact absurd hp (by simp)
          · rw [if_neg hpq] at hp
            rcases lookupFS_mkdirAllGo_dir_rev fs _ p hp with h' | hmem
            · exact hfsd p h' e (.tail x he) hf
            · intro heq
              exact hcross e (.tail x he) hf x (.head rest)
                (by rw [hnx, ← heq]; exact hmem))
      refine ⟨hIH.1, ?_, ?_⟩
      · intro e he hf
        rcases List.mem_cons.1 he with hex | herest
        · subst hex
          exact unzipLoop_preserve dest rest _ _ _ hwf
            (fun e' he' hf' heq => hndh (List.mem_map.2
              ⟨e', List.mem_filter.2 ⟨he', by simp [hf']⟩, heq⟩))
        · exact hIH.2.1 e herest hf
      · intro e he hd
        rcases List.mem_cons.1 he with hex | herest
        · rw [hex, hx] at hd
          exact Bool.noConfusion hd
        · exact hIH.2.2 e herest hd

/-! ## Claim theorems: `Unzip` -/

/-- Counterexample to C1: the archive `[file a/b, file a, file ../evil]`
extracted into `d` contains the non-descendant entry `../evil`, yet
`Unzip` never returns a path-traversal error for it: the second entry
opens `d/a` — by then a directory — so `OpenFile` fails with `EISDIR`
(downloader.go:225-228) and extraction aborts with that I/O error
first. -/
theorem unzip_io_error_preempts_traversal :
    entryOk (str "d") ⟨str "../evil", false, [3]⟩ = false ∧
    (unzipGo (str "d")
        [⟨str "a/b", false, [1]⟩, ⟨str "a", false, [2]⟩,
          ⟨str "../evil", false, [3]⟩] []).2 = some .ioErr := by
  constructor
  · decide
  · decide

/-- C1 (amended): provided every entry before the offending one extracts
cleanly (its directory creations and its file open and write succeed),
the first entry whose resolved path is not a path-separator-bounded
descendant of the cleaned destination aborts `Unzip` immediately with a
path-traversal error, and the filesystem is exactly the one the preceding
entries produced — nothing is written for the offending entry or any
later one. -/
theorem unzip_traversal_aborts (dest : Str) (fs0 : FS) (pre : List Entry)
    (bad : Entry) (rest : List Entry)
    (hpre : (unzipGo dest pre fs0).2 = none)
    (hbad : entryOk dest bad = false) :
    unzipGo dest (pre ++ bad :: rest) fs0
      = ((unzipGo dest pre fs0).1,
          some (.pathTraversal (joinPath dest bad.name))) := by
  simp only [unzipGo] at hpre ⊢
  by_cases hmd : (mkdirAllGo fs0 dest).2 = false
  · rw [if_pos hmd] at hpre
    exact absurd hpre (by simp)
  · rw [if_neg hmd] at hpre ⊢
    rw [if_neg hmd]
    exact unzipLoop_append_bad dest bad rest pre (mkdirAllGo fs0 dest).1
      hpre hbad

/-- Witness for C1 (amended): a concrete archive `[a, ../evil, b]`
extracted into `scratch`: the first entry extracts cleanly, then
`../evil` (joining to `evil`, outside `scratch/`) fails with a
path-traversal error, leaving only the first entry's effects. -/
theorem unzip_traversal_aborts_w :
    unzipGo (str "scratch")
        [⟨str "a", false, [1]⟩, ⟨str "../evil", false, [2]⟩,
          ⟨str "b", false, [3]⟩] []
      = ((unzipGo (str "scratch") [⟨str "a", false, [1]⟩] []).1,
          some (.pathTraversal (joinPath (str "scratch") (str "../evil")))) :=
  unzip_traversal_aborts (str "scratch") [] [⟨str "a", false, [1]⟩]
    ⟨str "../evil", false, [2]⟩ [⟨str "b", false, [3]⟩] (by decide) (by decide)

/-- C4: for every archive all of whose entries pass the zip-slip check,
whose resolved file paths are distinct, and in which no resolved file
path is also a needed directory (the destination's own chain, a directory
entry's chain, or a file entry's parent chain) — the conditions under
which any archiver-produced zip extracts, since a path cannot be both a
file and a directory — `Unzip` succeeds, every file entry's byte content
is reproduced at its resolved path, and every directory entry exists as a
directory at its resolved path. -/
theorem unzip_reproduces_archive (dest : Str) (entries : List Entry)
    (hok : ∀ e ∈ entries, entryOk dest e = true)
    (hnd : ((entries.filter (fun x => !x.isDir)).map
      (fun x => joinPath dest x.name)).Nodup)
    (hfd : ∀ e ∈ entries, e.isDir = false →
      joinPath dest e.name ∉ unzipDirs dest entries) :
    (unzipGo dest entries []).2 = none ∧
    (∀ e ∈ entries, e.isDir = false →
      lookupFS (unzipGo dest entries []).1 (joinPath dest e.name)
        = some (.file e.content)) ∧
    (∀ e ∈ entries, e.isDir = true →
      lookupFS (unzipGo dest entries []).1 (joinPath dest e.name)
        = some .dir) := by
  have hdest := mkdirAllGo_ok ([] : FS) dest
    (fun q hq c hc => by simp [lookupFS] at hc)
  have hfs1 : ∀ (p : Str) (m : Node),
      lookupFS (mkdirAllGo ([] : FS) dest).1 p = some m →
      m = Node.dir ∧ p ∈ dirChain dest := by
    intro p m h
    rw [hdest] at h
    rcases lookupFS_foldlInsert_rev (dirChain dest) [] p m h with h' | ⟨hm, hd⟩
    · simp [lookupFS] at h'
    · exact ⟨hd, hm⟩
  have hmain := unzipLoop_clean dest entries (mkdirAllGo ([] : FS) dest).1
    hok hnd
    (fun e he hf e' he' hmem => hfd e he hf
      (List.mem_append.2 (Or.inr (List.mem_flatten.2
        ⟨neededDirs dest e', List.mem_map.2 ⟨e', he', rfl⟩, hmem⟩))))
    (fun p c hpc e he hmem =>
      Node.noConfusion (hfs1 p _ hpc).1)
    (fun p hp e he hf heq =>
      hfd e he hf (heq ▸ List.mem_append.2 (Or.inl (hfs1 p _ hp).2)))
  simp only [unzipGo]
  rw [if_neg (by rw [hdest]; simp)]
  exact hmain

/-- Witness for C4: a concrete two-entry archive (a directory `sub` and a
file `sub/f`) extracted into `d` succeeds and reproduces the file bytes
and the directory. -/
theorem unzip_reproduces_archive_w :
    (unzipGo (str "d") [⟨str "sub", true, []⟩, ⟨str "sub/f", false, [7, 8]⟩]
        []).2 = none ∧
    lookupFS (unzipGo (str "d")
        [⟨str "sub", true, []⟩, ⟨str "sub/f", false, [7, 8]⟩] []).1
      (joinPath (str "d") (str "sub/f")) = some (.file [7, 8]) ∧
    lookupFS (unzipGo (str "d")
        [⟨str "sub", true, []⟩, ⟨str "sub/f", false, [7, 8]⟩] []).1
      (joinPath (str "d") (str "sub")) = some .dir :=
  ⟨(unzip_reproduces_archive (str "d") _ (by decide) (by decide)
      (by decide)).1,
    (unzip_reproduces_archive (str "d") _ (by decide) (by decide)
      (by decide)).2.1 ⟨str "sub/f", false, [7, 8]⟩ (by simp) rfl,
    (unzip_reproduces_archive (str "d") _ (by decide) (by decide)
      (by decide)).2.2 ⟨str "sub", true, []⟩ (by simp) rfl⟩

/-! ## Claim theorems: version resolution, state update, decision logic -/

/-- C7: for every non-empty explicit version string, `GetVersion` strips a
leading `"v"` and returns the remainder without a network call; both
`"v1.7.0"` and `"1.7.0"` yield `"1.7.0"`; the empty explicit version
delegates to the remote latest-version lookup. -/
theorem getVersion_resolution :
    (∀ v latest, v ≠ [] →
      getVersionGo v latest = (.ok (trimPref (str "v") v), false)) ∧
    (∀ latest, getVersionGo (str "v1.7.0") latest = (.ok (str "1.7.0"), false)) ∧
    (∀ latest, getVersionGo (str "1.7.0") latest = (.ok (str "1.7.0"), false)) ∧
    (∀ latest, getVersionGo [] latest = (latest, true)) := by
  refine ⟨fun v latest h => ?_, fun latest => rfl, fun latest => rfl,
    fun latest => rfl⟩
  simp [getVersionGo, h]

/-- Witness for C7 at the concrete version `"v1.7.0"`. -/
theorem getVersion_resolution_w :
    getVersionGo (str "v1.7.0") (.error .network) = (.ok (str "1.7.0"), false) :=
  getVersion_resolution.1 (str "v1.7.0") (.error .network) (by decide)

/-- C9: `Config.Update` leaves the stored version unchanged when the
version argument is empty and sets it otherwise, unconditionally
overwrites the install flag and path, and saves the full record. -/
theorem update_merges_and_saves : ∀ (c : Conf) (v : Str) (i : Bool) (p : Str),
    (updateGo c v i p).1.version = (if v = [] then c.version else v) ∧
    (updateGo c v i p).1.install = i ∧
    (updateGo c v i p).1.installPath = p ∧
    (updateGo c v i p).2 = saveContent (updateGo c v i p).1 := by
  intro c v i p
  rcases eq_or_ne v [] with h | h <;> simp [updateGo, h]

/-- C2: in an unattended run, equal versions with neither the forced flag
nor the (config-merged) install flag set skip download and install; a
forced run always proceeds, regardless of version equality. -/
theorem decide_skip_and_force :
    (∀ cfg ver, cfg.version = ver →
      (cfg.install = false ∨ cfg.installPath = []) →
      planRun 0 false [] false cfg ver = ⟨true, false, false, []⟩) ∧
    (∀ nflags fInstall fInstallPath cfg ver,
      (planRun nflags fInstall fInstallPath true cfg ver).upToDate = false ∧
      (planRun nflags fInstall fInstallPath true cfg ver).download = true) := by
  constructor
  · intro cfg ver h1 h2
    have hci : (cfg.install && !cfg.installPath.isEmpty) = false := by
      rcases h2 with h | h <;> simp [h]
    simp [planRun, hci, h1]
  · intro nflags fInstall fInstallPath cfg ver
    constructor <;> simp [planRun]

/-- Witness for C2: a concrete up-to-date unattended run skips, and a
concrete forced run proceeds. -/
theorem decide_skip_and_force_w :
    planRun 0 false [] false ⟨str "1.7.0", false, []⟩ (str "1.7.0")
        = ⟨true, false, false, []⟩ ∧
    (planRun 0 false [] true ⟨str "1.7.0", false, []⟩ (str "1.7.0")).download
        = true :=
  ⟨decide_skip_and_force.1 ⟨str "1.7.0", false, []⟩ (str "1.7.0") rfl
      (Or.inl rfl),
    (decide_skip_and_force.2 0 false [] ⟨str "1.7.0", false, []⟩
      (str "1.7.0")).2⟩

/-- Counterexample to C3: in an unattended run with the persisted version
equal to the resolved version and force off, a persisted state with
install enabled and a non-empty install path does NOT skip — the config
merge (main.go:53-56) sets the install flag, the up-to-date check
(main.go:69) then fails, and the run downloads (and installs). -/
theorem auto_up_to_date_still_downloads :
    planRun 0 false [] false ⟨str "1.7.0", true, str "/usr/local/bin"⟩
        (str "1.7.0")
      = ⟨false, true, true, str "/usr/local/bin"⟩ := by decide

/-- C3 (amended): in an unattended flagless run with force off, the run
reports "already up to date" and skips the download exactly when the
persisted version equals the resolved version AND the persisted state does
not have install enabled with a non-empty install path; otherwise it
proceeds to download. -/
theorem auto_up_to_date_characterization : ∀ (cfg : Conf) (ver : Str),
    (planRun 0 false [] false cfg ver).upToDate
        = (cfg.version == ver && !(cfg.install && !cfg.installPath.isEmpty)) ∧
    (planRun 0 false [] false cfg ver).download
        = !(cfg.version == ver && !(cfg.install && !cfg.installPath.isEmpty)) := by
  intro cfg ver
  cases h1 : (cfg.version == ver) <;>
    cases h2 : cfg.install <;>
      cases h3 : cfg.installPath.isEmpty <;>
        simp [planRun, h1, h2, h3]

/-- Counterexample to C5: on a non-2xx response the status check
(downloader.go:137-139) returns before `os.Create` (downloader.go:142)
runs, so the local destination file is NOT created. -/
theorem download_404_creates_no_file :
    downloadGo (str "1.7.0") (str "linux") (str "amd64")
        (.ok (str "1.7.0")) (some ⟨404, 0, []⟩)
      = (.error (.httpStatus 404), false, []) := rfl

/-- C5 (amended): when the archive GET returns a non-2xx status and
version resolution succeeded, `Download` returns an `HTTPStatus` error and
the local destination file is not created (the status check precedes file
creation). -/
theorem download_non2xx_no_file (tv os arch : Str)
    (latest : Except GoErr Str) (r : HttpResp)
    (hres : tv ≠ [] ∨ ∃ v, latest = .ok v)
    (hst : r.status < 200 ∨ 300 ≤ r.status) :
    downloadGo tv os arch latest (some r)
      = (.error (.httpStatus r.status), false, []) := by
  have h200 : r.status ≠ 200 := by omega
  rcases eq_or_ne tv [] with htv | htv
  · rcases hres with h | ⟨v, hv⟩
    · exact absurd htv h
    · subst htv hv
      simp [downloadGo, h200]
  · simp [downloadGo, htv, h200]

/-- Witness for C5 (amended) at a concrete 500 response. -/
theorem download_non2xx_no_file_w :
    downloadGo (str "1.6.0") (str "darwin") (str "arm64")
        (.error .network) (some ⟨500, 0, [1]⟩)
      = (.error (.httpStatus 500), false, []) :=
  download_non2xx_no_file (str "1.6.0") (str "darwin") (str "arm64")
    (.error .network) ⟨500, 0, [1]⟩ (Or.inl (by decide)) (Or.inr (by decide))

/-- C10: when the destination install path does not exist, the installer
returns an error before creating the scratch directory, extracting, or
writing anything — its phase trace is empty, so in particular the
destination install directory is never created. -/
theorem install_missing_path_aborts :
    ∀ (zipFile installPath tempDir : Str) (entries : List Entry)
      (hostWindows : Bool),
    installTerraformGo zipFile installPath tempDir entries false hostWindows
      = (some (.installPathMissing installPath), []) := by
  intro zipFile installPath tempDir entries hostWindows
  simp [installTerraformGo]

/-! ## String lemmas for the configuration file -/

theorem splitEq_eq_none (l : Str) (h : '=' ∉ l) : splitEq l = none := by
  induction l with
  | nil => rfl
  | cons c cs ih =>
    unfold splitEq
    rw [if_neg (fun (hc : c = '=') => h (hc ▸ List.mem_cons_self c cs)),
      ih (fun hm => h (.tail c hm))]
    rfl

theorem splitEq_append (k v : Str) (hk : '=' ∉ k) :
    splitEq (k ++ '=' :: v) = some (k, v) := by
  induction k with
  | nil => rfl
  | cons c cs ih =>
    show splitEq (c :: (cs ++ '=' :: v)) = _
    unfold splitEq
    rw [if_neg (fun (hc : c = '=') => hk (hc ▸ List.mem_cons_self c cs)),
      ih (fun hm => hk (.tail c hm))]
    rfl

theorem isPref_hash_iff (l : Str) :
    isPref (str "#") l = true ↔ l.head? = some '#' := by
  cases l with
  | nil => decide
  | cons b bs =>
    show ('#' == b && isPref [] bs) = true ↔ some b = some '#'
    rw [show isPref [] bs = true from rfl, Bool.and_true, beq_iff_eq]
    exact ⟨fun h => by rw [← h], fun h => by injection h with h2; rw [h2]⟩

theorem dropWhile_eq_self_of_head (p : Char → Bool) (l : Str)
    (h : ∀ a, l.head? = some a → p a = false) : l.dropWhile p = l := by
  cases l with
  | nil => rfl
  | cons c cs => rw [List.dropWhile_cons, if_neg (by simp [h c rfl])]

theorem trimSpace_eq_self (l : Str)
    (h1 : ∀ a, l.head? = some a → isSpace a = false)
    (h2 : ∀ a, l.getLast? = some a → isSpace a = false) :
    trimSpace l = l := by
  unfold trimSpace
  rw [dropWhile_eq_self_of_head _ _ h1,
    dropWhile_eq_self_of_head _ _
      (fun a ha => h2 a (by rwa [List.head?_reverse] at ha)),
    List.reverse_reverse]

theorem dropCR_eq_self (l : Str)
    (h : ∀ a, l.getLast? = some a → isSpace a = false) : dropCR l = l := by
  unfold dropCR
  rw [if_neg (fun hcr => by simpa [isSpace] using h '\r' hcr)]

theorem edgeTrimmed_head (s : Str) (h : edgeTrimmed s = true) :
    ∀ a, s.head? = some a → isSpace a = false := by
  intro a ha
  unfold edgeTrimmed at h
  rw [ha, Bool.and_eq_true] at h
  simpa using h.1

theorem edgeTrimmed_last (s : Str) (h : edgeTrimmed s = true) :
    ∀ a, s.getLast? = some a → isSpace a = false := by
  intro a ha
  unfold edgeTrimmed at h
  rw [ha, Bool.and_eq_true] at h
  simpa using h.2

theorem newline_not_mem_of_printable (s : Str)
    (h : s.all printableChar = true) : '\n' ∉ s := fun hm =>
  absurd (List.all_eq_true.1 h _ hm) (by decide)

theorem splitLines_newline_cons (rest : Str) :
    splitLines ('\n' :: rest) = [] :: splitLines rest := rfl

theorem splitLines_append (a rest : Str) (ha : '\n' ∉ a) :
    splitLines (a ++ '\n' :: rest) = a :: splitLines rest := by
  induction a with
  | nil => exact splitLines_newline_cons rest
  | cons c cs ih =>
    show splitLines (c :: (cs ++ '\n' :: rest)) = (c :: cs) :: splitLines rest
    rw [show splitLines (c :: (cs ++ '\n' :: rest))
        = if c = '\n' then [] :: splitLines (cs ++ '\n' :: rest)
          else (c :: (splitLines (cs ++ '\n' :: rest)).headI)
            :: (splitLines (cs ++ '\n' :: rest)).tail from rfl,
      if_neg (fun (hc : c = '\n') => ha (hc ▸ List.mem_cons_self c cs)),
      ih (fun hm => ha (.tail c hm))]
    rfl

/-! ## Claim theorems: configuration load tolerance and round-trip -/

/-- C8: `Config.Load` is tolerant for every file content: an absent file
yields the zero-value state with no error; a line whose trimmed form
contains no `'='` is skipped; a `key=value` line with an unrecognized key
is skipped; and an `install` line whose value fails boolean parsing sets
the install flag to `false` without aborting the load. -/
theorem load_tolerant :
    (∀ content, loadGo false content = (defaultConf, none)) ∧
    (∀ c l, '=' ∉ trimSpace (dropCR l) → applyLine c l = c) ∧
    (∀ c l k v, trimSpace (dropCR l) = l → splitEq l = some (k, v) →
      trimSpace k ≠ str "version" → trimSpace k ≠ str "install" →
      trimSpace k ≠ str "install_path" → applyLine c l = c) ∧
    (∀ c l k v, trimSpace (dropCR l) = l → l.head? ≠ some '#' →
      splitEq l = some (k, v) → trimSpace k = str "install" →
      parseBool (trimSpace v) = none →
      applyLine c l = { c with install := false }) := by
  refine ⟨fun content => rfl, ?_, ?_, ?_⟩
  · intro c l h
    simp only [applyLine]
    by_cases h0 : trimSpace (dropCR l) = []
    · rw [if_pos h0]
    · rw [if_neg h0]
      by_cases h1 : isPref (str "#") (trimSpace (dropCR l)) = true
      · rw [if_pos h1]
      · rw [if_neg h1, splitEq_eq_none _ h]
  · intro c l k v htrim hsplit h1 h2 h3
    have hl : l ≠ [] := by
      rintro rfl
      simp [splitEq] at hsplit
    simp only [applyLine, htrim]
    rw [if_neg hl]
    by_cases hh : isPref (str "#") l = true
    · rw [if_pos hh]
    · rw [if_neg hh, hsplit]
      simp [h1, h2, h3]
  · intro c l k v htrim hhash hsplit hkey hpb
    have hl : l ≠ [] := by
      rintro rfl
      simp [splitEq] at hsplit
    have hh : ¬isPref (str "#") l = true :=
      fun h => hhash ((isPref_hash_iff l).1 h)
    simp only [applyLine, htrim]
    rw [if_neg hl, if_neg hh, hsplit]
    show (if trimSpace k = str "version" then
        { c with version := trimSpace v }
      else if trimSpace k = str "install" then
        { c with install := (parseBool (trimSpace v)).getD false }
      else if trimSpace k = str "install_path" then
        { c with installPath := trimSpace v }
      else c) = { c with install := false }
    rw [hkey, if_neg (show ¬(str "install" = str "version") from by decide),
      if_pos rfl, hpb]
    rfl

/-- Witness for C8: an absent file, a separator-less line, an unknown key,
and an unparsable boolean, all at concrete inputs. -/
theorem load_tolerant_w :
    loadGo false (str "version=9.9.9") = (defaultConf, none) ∧
    applyLine defaultConf (str "no separator line") = defaultConf ∧
    applyLine defaultConf (str "unknown_key=zzz") = defaultConf ∧
    applyLine ⟨str "1.7.0", true, str "/usr/local/bin"⟩ (str "install=maybe")
      = ⟨str "1.7.0", false, str "/usr/local/bin"⟩ :=
  ⟨load_tolerant.1 (str "version=9.9.9"),
    load_tolerant.2.1 defaultConf (str "no separator line") (by decide),
    load_tolerant.2.2.1 defaultConf (str "unknown_key=zzz")
      (str "unknown_key") (str "zzz") (by decide) (by decide) (by decide)
      (by decide) (by decide),
    load_tolerant.2.2.2 ⟨str "1.7.0", true, str "/usr/local/bin"⟩
      (str "install=maybe") (str "install") (str "maybe") (by decide)
      (by decide) (by decide) (by decide) (by decide)⟩

/-! ## Round-trip lemmas -/

theorem applyLine_header1 (c : Conf) :
    applyLine c (str "# tfdown configuration file") = c := rfl

theorem applyLine_header2 (c : Conf) :
    applyLine c (str "# Last updated: 2026-02-05") = c := rfl

theorem applyLine_blank (c : Conf) : applyLine c [] = c := rfl

theorem applyLine_install_bool (c : Conf) (b : Bool) :
    applyLine c (str "install=" ++ boolStr b) = { c with install := b } := by
  cases b <;> rfl

theorem line_edge_facts (tag v : Str) (a : Char) (hne : v ≠ [])
    (hl : ∀ x, v.getLast? = some x → isSpace x = false)
    (ha : (tag ++ v).getLast? = some a) : isSpace a = false := by
  rw [List.getLast?_append_of_ne_nil tag hne] at ha
  exact hl a ha

theorem applyLine_version_line (c : Conf) (v : Str) (hne : v ≠ [])
    (hh : ∀ a, v.head? = some a → isSpace a = false)
    (hl : ∀ a, v.getLast? = some a → isSpace a = false) :
    applyLine c (str "version=" ++ v) = { c with version := v } := by
  have hlast : ∀ a, (str "version=" ++ v).getLast? = some a →
      isSpace a = false :=
    fun a ha => line_edge_facts (str "version=") v a hne hl ha
  have hhead : ∀ a, (str "version=" ++ v).head? = some a →
      isSpace a = false := by
    intro a ha
    have : a = 'v' := by injection ha with h2; exact h2.symm
    rw [this]
    decide
  have hform : str "version=" ++ v = str "version" ++ '=' :: v := by
    rw [show str "version=" = str "version" ++ ['='] from by decide,
      List.append_assoc]
    rfl
  simp only [applyLine, dropCR_eq_self _ hlast, trimSpace_eq_self _ hhead hlast]
  rw [if_neg (show ¬(str "version=" ++ v = []) from List.cons_ne_nil _ _),
    if_neg (show ¬(isPref (str "#") (str "version=" ++ v) = true) from
      fun h => Bool.false_ne_true h),
    hform, splitEq_append _ _ (by decide)]
  show (if trimSpace (str "version") = str "version" then
      { c with version := trimSpace v }
    else if trimSpace (str "version") = str "install" then
      { c with install := (parseBool (trimSpace v)).getD false }
    else if trimSpace (str "version") = str "install_path" then
      { c with installPath := trimSpace v }
    else c) = { c with version := v }
  rw [if_pos (by decide), trimSpace_eq_self _ hh hl]

theorem applyLine_install_path_line (c : Conf) (p : Str) (hne : p ≠ [])
    (hh : ∀ a, p.head? = some a → isSpace a = false)
    (hl : ∀ a, p.getLast? = some a → isSpace a = false) :
    applyLine c (str "install_path=" ++ p) = { c with installPath := p } := by
  have hlast : ∀ a, (str "install_path=" ++ p).getLast? = some a →
      isSpace a = false :=
    fun a ha => line_edge_facts (str "install_path=") p a hne hl ha
  have hhead : ∀ a, (str "install_path=" ++ p).head? = some a →
      isSpace a = false := by
    intro a ha
    have : a = 'i' := by injection ha with h2; exact h2.symm
    rw [this]
    decide
  have hform : str "install_path=" ++ p = str "install_path" ++ '=' :: p := by
    rw [show str "install_path=" = str "install_path" ++ ['='] from by decide,
      List.append_assoc]
    rfl
  simp only [applyLine, dropCR_eq_self _ hlast, trimSpace_eq_self _ hhead hlast]
  rw [if_neg (show ¬(str "install_path=" ++ p = []) from List.cons_ne_nil _ _),
    if_neg (show ¬(isPref (str "#") (str "install_path=" ++ p) = true) from
      fun h => Bool.false_ne_true h),
    hform, splitEq_append _ _ (by decide)]
  show (if trimSpace (str "install_path") = str "version" then
      { c with version := trimSpace p }
    else if trimSpace (str "install_path") = str "install" then
      { c with install := (parseBool (trimSpace p)).getD false }
    else if trimSpace (str "install_path") = str "install_path" then
      { c with installPath := trimSpace p }
    else c) = { c with installPath := p }
  rw [if_neg (by decide), if_neg (by decide), if_pos (by decide),
    trimSpace_eq_self _ hh hl]

theorem splitLines_saveContent (v : Str) (b : Bool) (p : Str)
    (hv : '\n' ∉ v) (hp : '\n' ∉ p) :
    splitLines (saveContent ⟨v, b, p⟩) =
      [str "# tfdown configuration file", str "# Last updated: 2026-02-05",
        [], str "version=" ++ v, str "install=" ++ boolStr b,
        str "install_path=" ++ p, []] := by
  show splitLines (str "# tfdown configuration file" ++ '\n' ::
    (str "# Last updated: 2026-02-05" ++ '\n' :: '\n' ::
      (str "version=" ++ (v ++ '\n' ::
        (str "install=" ++ (boolStr b ++ '\n' ::
          (str "install_path=" ++ (p ++ '\n' :: [])))))))) = _
  rw [splitLines_append _ _ (by decide), splitLines_append _ _ (by decide),
    splitLines_newline_cons,
    show str "version=" ++ (v ++ '\n' ::
        (str "install=" ++ (boolStr b ++ '\n' ::
          (str "install_path=" ++ (p ++ '\n' :: [])))))
      = (str "version=" ++ v) ++ '\n' ::
        (str "install=" ++ (boolStr b ++ '\n' ::
          (str "install_path=" ++ (p ++ '\n' :: []))))
      from (List.append_assoc _ _ _).symm,
    splitLines_append _ _ (fun hm => by
      rcases List.mem_append.1 hm with h | h
      · exact absurd h (by decide)
      · exact hv h),
    show str "install=" ++ (boolStr b ++ '\n' ::
        (str "install_path=" ++ (p ++ '\n' :: [])))
      = (str "install=" ++ boolStr b) ++ '\n' ::
        (str "install_path=" ++ (p ++ '\n' :: []))
      from (List.append_assoc _ _ _).symm,
    splitLines_append _ _ (fun hm => by
      rcases List.mem_append.1 hm with h | h
      · exact absurd h (by decide)
      · cases b <;> exact absurd h (by decide)),
    show str "install_path=" ++ (p ++ '\n' :: [])
      = (str "install_path=" ++ p) ++ '\n' :: []
      from (List.append_assoc _ _ _).symm,
    splitLines_append _ _ (fun hm => by
      rcases List.mem_append.1 hm with h | h
      · exact absurd h (by decide)
      · exact hp h)]
  rfl

/-! ## Claim theorems: configuration round-trip -/

/-- Counterexample to C6: the round-trip fails for a state whose version
field is the non-empty printable string `" 1.7.0"` (leading ASCII space —
a printable character): `Config.Load` trims values with
`strings.TrimSpace` (config.go:61), so the loaded version is `"1.7.0"`,
not `" 1.7.0"`. -/
theorem save_load_no_roundtrip :
    ((str " 1.7.0").all printableChar = true ∧ str " 1.7.0" ≠ [] ∧
      (str "/usr/local/bin").all printableChar = true ∧
      str "/usr/local/bin" ≠ []) ∧
    loadGo true (saveContent ⟨str " 1.7.0", true, str "/usr/local/bin"⟩)
      ≠ (⟨str " 1.7.0", true, str "/usr/local/bin"⟩, none) := by
  constructor
  · decide
  · decide

/-- C6 (amended): `save` followed by `load` reproduces every state whose
string fields are non-empty printable strings with no leading or trailing
whitespace, for either boolean value. -/
theorem save_load_roundtrip (s : Conf)
    (hv1 : s.version ≠ []) (hv2 : s.version.all printableChar = true)
    (hv3 : edgeTrimmed s.version = true)
    (hp1 : s.installPath ≠ []) (hp2 : s.installPath.all printableChar = true)
    (hp3 : edgeTrimmed s.installPath = true) :
    loadGo true (saveContent s) = (s, none) := by
  obtain ⟨v, b, p⟩ := s
  show (loadContent defaultConf (saveContent ⟨v, b, p⟩), none) = _
  unfold loadContent
  rw [splitLines_saveContent v b p
    (newline_not_mem_of_printable _ hv2) (newline_not_mem_of_printable _ hp2)]
  simp only [List.foldl_cons, List.foldl_nil, applyLine_header1,
    applyLine_header2, applyLine_blank]
  rw [applyLine_version_line defaultConf v hv1
      (edgeTrimmed_head _ hv3) (edgeTrimmed_last _ hv3),
    applyLine_install_bool, applyLine_install_path_line _ p hp1
      (edgeTrimmed_head _ hp3) (edgeTrimmed_last _ hp3)]

/-- Witness for C6 (amended) at a concrete state. -/
theorem save_load_roundtrip_w :
    loadGo true (saveContent ⟨str "1.7.0", true, str "/usr/local/bin"⟩)
      = (⟨str "1.7.0", true, str "/usr/local/bin"⟩, none) :=
  save_load_roundtrip ⟨str "1.7.0", true, str "/usr/local/bin"⟩
    (by decide) (by decide) (by decide) (by decide) (by decide) (by decide)

end Tfdown
